/-
Verification of the tetris engine (src/tetris.py).

This file gives a shallow embedding of the core of the game: bricks,
blocks (tetromino pieces), the game state with its settled-cell mapping
(`building`), the per-brick occupancy check `can_move`, rotation via
`get_rotation_coords`, row completion/removal (`row_is_completed`,
`remove_row`, `move_bricks_down`), the lock/clear pass `update_building`,
and the move dispatcher `do_move` together with the loop guard `step`.

Python integers are modelled as `Int`; the `building` dict, whose values
are brick objects kept in sync with their own keys, is modelled as the
`Finset` of its coordinate keys.  The random draw in `create_block` is
modelled by an explicit `pick : Nat` oracle reduced modulo the catalog
length.  Curses calls, threads and timing are I/O and are dropped.
-/
import Mathlib

namespace Tetris

/-- A shape tag for the five block subclasses of the source
(`IBlock`, `LBlock`, `JBlock`, `ZBlock`, `OBlock`). -/
inductive Shape where
  | I | L | J | Z | O
deriving DecidableEq

/-- `center_brick_index` : class attribute `Block.center_brick_index = 1`,
overridden to `2` by `IBlock` and to `0` by `OBlock`. -/
def Shape.center_brick_index : Shape → ℕ
  | .I => 2
  | .O => 0
  | _ => 1

/-- The `init_coordinates` classmethod of each `Block` subclass. -/
def Shape.init_coordinates : Shape → ℤ → ℤ → List (ℤ × ℤ)
  | .I, cx, cy => [(cx - 2, cy), (cx - 1, cy), (cx, cy), (cx + 1, cy)]
  | .L, cx, cy => [(cx - 1, cy), (cx, cy), (cx + 1, cy), (cx - 1, cy + 1)]
  | .J, cx, cy => [(cx - 1, cy), (cx, cy), (cx + 1, cy), (cx + 1, cy + 1)]
  | .Z, cx, cy => [(cx - 1, cy), (cx, cy), (cx, cy + 1), (cx + 1, cy + 1)]
  | .O, cx, cy => [(cx, cy), (cx - 1, cy), (cx, cy + 1), (cx - 1, cy + 1)]

/-- A `Brick` : a single cell of a block, at board position `(x, y)`. -/
structure Brick where
  x : ℤ
  y : ℤ
deriving DecidableEq

/-- `Brick.move` : `self.x += dx; self.y += dy`. -/
def Brick.move (b : Brick) (dx dy : ℤ) : Brick :=
  ⟨b.x + dx, b.y + dy⟩

/-- `Brick.get_rotation_coords(direction, center)` : the per-brick
displacement implementing a 90 degree rotation about `center`. -/
def Brick.get_rotation_coords (b : Brick) (direction : ℤ) (center : Brick) : ℤ × ℤ :=
  (-direction * (b.y - center.y) - (b.x - center.x),
    direction * (b.x - center.x) - (b.y - center.y))

/-- A `Block` : a shape tag (the subclass) plus its list of bricks.
The source keeps `self.center` as an alias of
`self.bricks[self.center_brick_index]`; here the center is recomputed
from the list (see `Block.center`), which is equivalent because the
list is never reordered. -/
structure Block where
  shape : Shape
  bricks : List Brick
deriving DecidableEq

/-- `Block.__init__` : build the bricks from `init_coordinates`. -/
def Block.create (s : Shape) (center_x center_y : ℤ) : Block :=
  ⟨s, (s.init_coordinates center_x center_y).map fun p => ⟨p.1, p.2⟩⟩

/-- `self.center = self.bricks[self.center_brick_index]`.  The default
brick is never used on blocks built by `Block.create` (4 bricks, index
at most 2). -/
def Block.center (b : Block) : Brick :=
  b.bricks.getD b.shape.center_brick_index ⟨0, 0⟩

/-- The game state.  `building` holds the coordinates of all settled
bricks (the keys of the source's `building` dict).  `over` records that
`exit()` has been called (the mainloop thread was stopped).  Curses
window, speed and thread handles are I/O state and are not modelled. -/
structure Game where
  width : ℤ
  height : ℤ
  building : Finset (ℤ × ℤ)
  blocks : List Shape
  current_block : Block
  over : Bool
deriving DecidableEq

/-- Class attribute `Game.border_size = 1`. -/
def border_size : ℤ := 1

/-- `Brick.can_move(game, dx, dy)` : target inside
`range(border_size, width + 1) × range(height + 1)` and not a key of
`building`. -/
def Brick.can_move (b : Brick) (g : Game) (dx dy : ℤ) : Bool :=
  decide (border_size ≤ b.x + dx ∧ b.x + dx < g.width + 1 ∧
    0 ≤ b.y + dy ∧ b.y + dy < g.height + 1 ∧
    (b.x + dx, b.y + dy) ∉ g.building)

/-- `Block.can_move` : every brick can move by `(dx, dy)`. -/
def Block.can_move (b : Block) (g : Game) (dx dy : ℤ) : Bool :=
  b.bricks.all fun br => br.can_move g dx dy

/-- `Block.move` : move every brick by `(dx, dy)`.  The source mutates
the bricks one at a time; since `move` reads nothing but the brick
itself this equals a pointwise map. -/
def Block.move (b : Block) (dx dy : ℤ) : Block :=
  { b with bricks := b.bricks.map fun br => br.move dx dy }

/-- `Block.can_rotate(game, direction)` : every brick can move by its
rotation displacement about the center.  Not overridden by `OBlock`. -/
def Block.can_rotate (b : Block) (g : Game) (direction : ℤ) : Bool :=
  b.bricks.all fun br =>
    (br.can_move g (br.get_rotation_coords direction b.center).1
      (br.get_rotation_coords direction b.center).2)

/-- One iteration of the loop in `Block.rotate` : move the brick at
index `i` by its rotation displacement about the brick currently at the
center index.  The in-place mutation of the source is modelled by
re-reading the center from the current list. -/
def rotateStep (cIdx : ℕ) (direction : ℤ) (l : List Brick) (i : ℕ) : List Brick :=
  match l[i]? with
  | some br =>
      l.set i (br.move (br.get_rotation_coords direction (l.getD cIdx ⟨0, 0⟩)).1
        (br.get_rotation_coords direction (l.getD cIdx ⟨0, 0⟩)).2)
  | none => l

/-- The loop of `Block.rotate` : mutate the bricks in list order. -/
def rotateLoop (l : List Brick) (direction : ℤ) (cIdx : ℕ) : List Brick :=
  (List.range l.length).foldl (rotateStep cIdx direction) l

/-- `Block.rotate(direction)`, with the `OBlock.rotate` override that
does nothing. -/
def Block.rotate (b : Block) (direction : ℤ) : Block :=
  match b.shape with
  | .O => b
  | _ => { b with bricks := rotateLoop b.bricks direction b.shape.center_brick_index }

/-- The list `[lo, lo + 1, ..., hi]`, i.e. Python `range(lo, hi + 1)`. -/
def intRange (lo hi : ℤ) : List ℤ :=
  (List.range (hi + 1 - lo).toNat).map fun i : ℕ => lo + (i : ℤ)

/-- The list `[hi, hi - 1, ..., lo]`, i.e. Python
`reversed(range(lo, hi + 1))`. -/
def intRangeRev (lo hi : ℤ) : List ℤ :=
  (List.range (hi + 1 - lo).toNat).map fun i : ℕ => hi - (i : ℤ)

/-- `Game.row_is_completed(y)` : every column of
`range(border_size, width + 1)` is a key of `building` at row `y`. -/
def row_is_completed (width : ℤ) (B : Finset (ℤ × ℤ)) (y : ℤ) : Bool :=
  (intRange border_size width).all fun x => decide ((x, y) ∈ B)

/-- The loop body of `Game.move_bricks_down(from_x, from_y)`,
generalised over the lower bound `lo` of the scanned row range (the
source always calls it with `lo = border_size`): walk the rows from
`from_y` down to `lo` and move each settled brick of column `from_x`
down by one (delete its key, re-insert one row lower). -/
def moveBricksDownFrom (lo from_x from_y : ℤ) (B : Finset (ℤ × ℤ)) : Finset (ℤ × ℤ) :=
  (intRangeRev lo from_y).foldl
    (fun C y => if (from_x, y) ∈ C then insert (from_x, y + 1) (C.erase (from_x, y)) else C) B

/-- `Game.move_bricks_down(from_x, from_y)`. -/
def move_bricks_down (from_x from_y : ℤ) (B : Finset (ℤ × ℤ)) : Finset (ℤ × ℤ) :=
  moveBricksDownFrom border_size from_x from_y B

/-- `Game.remove_row(y)` (the curses cursor moves dropped) : for each
column `x` of `range(border_size, width + 1)`, delete the key `(x, y)`
(present whenever the row is completed, as the caller ensures) and then
shift column `x` down via `move_bricks_down(x, y)`. -/
def remove_row (width : ℤ) (B : Finset (ℤ × ℤ)) (y : ℤ) : Finset (ℤ × ℤ) :=
  (intRange border_size width).foldl (fun C x => move_bricks_down x y (C.erase (x, y))) B

/-- The first loop of `Game.update_building` : insert the coordinates of
the current block's bricks into `building`. -/
def commit_bricks (bricks : List Brick) (B : Finset (ℤ × ℤ)) : Finset (ℤ × ℤ) :=
  bricks.foldl (fun C br => insert (br.x, br.y) C) B

/-- The second loop of `Game.update_building` : scan the rows
`range(border_size, height + 1)` in ascending order and remove each row
found completed (against the current, already partly cleared state). -/
def clear_rows (width height : ℤ) (B : Finset (ℤ × ℤ)) : Finset (ℤ × ℤ) :=
  (intRange border_size height).foldl
    (fun C y => if row_is_completed width C y then remove_row width C y else C) B

/-- `Game.update_building()` : commit the bricks, then clear completed
rows. -/
def Game.update_building (g : Game) : Game :=
  { g with building := clear_rows g.width g.height (commit_bricks g.current_block.bricks g.building) }

/-- `Game.create_block()` : draw a random catalog shape and place it at
`(self.width / 2, 0)` (Python 2 floor division).  `random.randint(0,
len(self.blocks) - 1)` raises on an empty catalog, modelled as `none`;
the draw itself is the oracle `pick` reduced modulo the length. -/
def Game.create_block (g : Game) (pick : ℕ) : Option Game :=
  if g.blocks.isEmpty then none
  else some { g with
    current_block := Block.create (g.blocks.getD (pick % g.blocks.length) Shape.I) (g.width.fdiv 2) 0 }

/-- The key presses `do_move` reacts to: `self.directions` maps
`KEY_LEFT`, `KEY_RIGHT` and the synthetic `'down'`;
`self.rotate_directions` maps `KEY_UP` to `1` and `KEY_DOWN` to `-1`.
Any other key falls through `do_move` doing nothing. -/
inductive Key where
  | left | right | down | rotUp | rotDown
deriving DecidableEq

/-- The feasibility gate `do_move` consults for each key. -/
def Game.moveGate (g : Game) (k : Key) : Bool :=
  match k with
  | .left => g.current_block.can_move g (-1) 0
  | .right => g.current_block.can_move g 1 0
  | .down => g.current_block.can_move g 0 1
  | .rotUp => g.current_block.can_rotate g 1
  | .rotDown => g.current_block.can_rotate g (-1)

/-- `Game.do_move(key)` (the `redraw_block` painting dropped; the block
mutation it performs is kept).  On an infeasible `'down'` the block is
locked: `update_building`, then `create_block`, then `exit()` if the new
block cannot occupy its spawn cells.  `none` models the uncaught
exception `create_block` raises on an empty catalog. -/
def Game.do_move (g : Game) (k : Key) (pick : ℕ) : Option Game :=
  match k with
  | .left =>
      some (if g.current_block.can_move g (-1) 0
        then { g with current_block := g.current_block.move (-1) 0 } else g)
  | .right =>
      some (if g.current_block.can_move g 1 0
        then { g with current_block := g.current_block.move 1 0 } else g)
  | .down =>
      if g.current_block.can_move g 0 1
      then some { g with current_block := g.current_block.move 0 1 }
      else
        match g.update_building.create_block pick with
        | none => none
        | some g2 =>
            some (if g2.current_block.can_move g2 0 0 then g2 else { g2 with over := true })
  | .rotUp =>
      some (if g.current_block.can_rotate g 1
        then { g with current_block := g.current_block.rotate 1 } else g)
  | .rotDown =>
      some (if g.current_block.can_rotate g (-1)
        then { g with current_block := g.current_block.rotate (-1) } else g)

/-- One iteration of the driving loops (`mainloop` /
`listen_key_loop`) : both loops test `self.mainloop_thread.stopped()`
before dispatching to `do_move`, so once `exit()` has run no further
move is processed. -/
def Game.step (g : Game) (k : Key) (pick : ℕ) : Option Game :=
  if g.over then some g else g.do_move k pick

/-- `Game.__init__` (curses initialisation dropped) : record the
configuration, start with an empty `building`, and spawn the first
block via `create_block` (called from `init_play_board`).  No
validation of `width`, `height` or `blocks` is performed; the only
failure is the `random.randint` exception on an empty catalog.  The
placeholder block mirrors the class attribute `current_block = None`
and is immediately overwritten. -/
def Game.init (blocks : List Shape) (width height : ℤ) (pick : ℕ) : Option Game :=
  Game.create_block
    { width := width, height := height, building := ∅, blocks := blocks,
      current_block := Block.create Shape.I 0 0, over := false } pick

/-- The pure per-brick rotation about a fixed center `c`: the brick
moved by exactly the displacement `get_rotation_coords` computes, which
is also the displacement `can_rotate` feeds to `can_move`. -/
def rotateBrick (direction : ℤ) (c : Brick) (br : Brick) : Brick :=
  br.move (br.get_rotation_coords direction c).1 (br.get_rotation_coords direction c).2

/-! ### Basic lemmas about ranges and bricks -/

theorem intRange_eq_nil (lo hi : ℤ) (h : hi < lo) : intRange lo hi = [] := by
  have h0 : (hi + 1 - lo).toNat = 0 := by omega
  simp [intRange, h0]

theorem intRange_eq_cons (lo hi : ℤ) (h : lo ≤ hi) :
    intRange lo hi = lo :: intRange (lo + 1) hi := by
  have h1 : (hi + 1 - lo).toNat = (hi + 1 - (lo + 1)).toNat + 1 := by omega
  rw [intRange, h1, List.range_succ_eq_map, List.map_cons, List.map_map]
  refine congrArg₂ List.cons (by simp) ?_
  rw [intRange]
  apply List.map_congr_left
  intro a _
  simp [Nat.succ_eq_add_one]
  ring

theorem intRangeRev_eq_nil (lo hi : ℤ) (h : hi < lo) : intRangeRev lo hi = [] := by
  have h0 : (hi + 1 - lo).toNat = 0 := by omega
  simp [intRangeRev, h0]

theorem intRangeRev_eq_append (lo hi : ℤ) (h : lo ≤ hi) :
    intRangeRev lo hi = intRangeRev (lo + 1) hi ++ [lo] := by
  have h1 : (hi + 1 - lo).toNat = (hi + 1 - (lo + 1)).toNat + 1 := by omega
  rw [intRangeRev, h1, List.range_succ, List.map_append, intRangeRev]
  refine congrArg₂ List.append rfl ?_
  have h2 : hi - ((hi + 1 - (lo + 1)).toNat : ℤ) = lo := by omega
  simp only [List.map_cons, List.map_nil, h2]

theorem mem_intRange (x lo hi : ℤ) : x ∈ intRange lo hi ↔ lo ≤ x ∧ x ≤ hi := by
  rw [intRange]
  simp only [List.mem_map, List.mem_range]
  constructor
  · rintro ⟨i, hi', rfl⟩
    omega
  · intro ⟨h1, h2⟩
    exact ⟨(x - lo).toNat, by omega, by omega⟩

theorem intRange_nodup (lo hi : ℤ) : (intRange lo hi).Nodup := by
  refine List.Nodup.map ?_ (List.nodup_range _)
  intro a b hab
  dsimp only at hab
  omega

theorem intRange_length (lo hi : ℤ) : (intRange lo hi).length = (hi + 1 - lo).toNat := by
  simp [intRange]

theorem Brick.move_zero (b : Brick) : b.move 0 0 = b := by
  cases b
  simp [Brick.move]

theorem get_rotation_coords_self (c : Brick) (d : ℤ) :
    c.get_rotation_coords d c = (0, 0) := by
  simp [Brick.get_rotation_coords]

theorem rotateBrick_center (d : ℤ) (c : Brick) : rotateBrick d c c = c := by
  rw [rotateBrick, get_rotation_coords_self]
  exact c.move_zero

theorem rotateBrick_inv (c br : Brick) : rotateBrick (-1) c (rotateBrick 1 c br) = br := by
  cases c
  cases br
  simp only [rotateBrick, Brick.move, Brick.get_rotation_coords]
  refine congrArg₂ Brick.mk (by ring) (by ring)

/-! ### The rotation loop equals a pointwise map about the fixed pivot -/

theorem rotateStep_length (cIdx : ℕ) (d : ℤ) (m : List Brick) (i : ℕ) :
    (rotateStep cIdx d m i).length = m.length := by
  rw [rotateStep]
  cases m[i]? <;> simp

theorem rotateFold_length (cIdx : ℕ) (d : ℤ) (rs : List ℕ) :
    ∀ (m : List Brick), (rs.foldl (rotateStep cIdx d) m).length = m.length := by
  induction rs with
  | nil => intro m; rfl
  | cons r rs ih => intro m; rw [List.foldl_cons, ih, rotateStep_length]

theorem rotateLoop_invariant (l : List Brick) (d : ℤ) (cIdx : ℕ) :
    ∀ k j : ℕ, ((List.range k).foldl (rotateStep cIdx d) l)[j]? =
      if j < k then (l[j]?).map (rotateBrick d (l.getD cIdx ⟨0, 0⟩)) else l[j]? := by
  intro k
  induction k with
  | zero => intro j; simp
  | succ k ih =>
    intro j
    rw [List.range_succ, List.foldl_append, List.foldl_cons, List.foldl_nil]
    set L := (List.range k).foldl (rotateStep cIdx d) l with hL
    have hlen : L.length = l.length := rotateFold_length cIdx d _ l
    have hcenter : L.getD cIdx ⟨0, 0⟩ = l.getD cIdx ⟨0, 0⟩ := by
      rw [List.getD_eq_getElem?_getD, List.getD_eq_getElem?_getD, ih cIdx]
      by_cases hc : cIdx < k
      · simp only [hc, if_pos]
        cases hx : l[cIdx]? with
        | none => simp
        | some c =>
            simp [hx, rotateBrick_center]
      · simp [hc]
    have hk' : L[k]? = l[k]? := by rw [ih k]; simp
    rw [rotateStep, hk']
    cases hx : l[k]? with
    | none =>
      rw [ih j]
      by_cases h1 : j < k
      · have h2 : j < k + 1 := by omega
        simp [h1, h2]
      · by_cases h2 : j = k
        · subst h2
          simp [h1, hx]
        · have h3 : ¬ j < k + 1 := by omega
          simp [h1, h3]
    | some br =>
      rw [hcenter]
      have hkl : k < L.length := by
        rw [hlen]
        by_contra hcon
        rw [List.getElem?_eq_none (by omega)] at hx
        simp at hx
      by_cases h2 : j = k
      · subst h2
        rw [List.getElem?_set_self hkl]
        simp [hx, rotateBrick]
      · rw [List.getElem?_set_ne (by omega)]
        rw [ih j]
        by_cases h1 : j < k
        · have h3 : j < k + 1 := by omega
          simp [h1, h3]
        · have h3 : ¬ j < k + 1 := by omega
          simp [h1, h3]

theorem rotateLoop_eq_map (l : List Brick) (d : ℤ) (cIdx : ℕ) :
    rotateLoop l d cIdx = l.map (rotateBrick d (l.getD cIdx ⟨0, 0⟩)) := by
  apply List.ext_getElem?
  intro j
  rw [rotateLoop, rotateLoop_invariant l d cIdx l.length j, List.getElem?_map]
  by_cases hj : j < l.length
  · simp [hj]
  · have : l[j]? = none := List.getElem?_eq_none (by omega)
    simp [hj, this]

theorem Block.eq_of (b1 b2 : Block) (h1 : b1.shape = b2.shape)
    (h2 : b1.bricks = b2.bricks) : b1 = b2 := by
  cases b1
  cases b2
  cases h1
  cases h2
  rfl

theorem Block.rotate_shape (b : Block) (d : ℤ) : (b.rotate d).shape = b.shape := by
  rw [Block.rotate]
  split <;> rfl

theorem Block.rotate_eq_map (b : Block) (d : ℤ) (hb : b.shape ≠ Shape.O) :
    (b.rotate d).bricks = b.bricks.map (rotateBrick d b.center) := by
  rw [Block.rotate]
  split
  · exact absurd (by assumption) hb
  · simp [rotateLoop_eq_map, Block.center]

theorem Block.rotate_O (b : Block) (d : ℤ) (hb : b.shape = Shape.O) :
    b.rotate d = b := by
  rw [Block.rotate, hb]

theorem Block.rotate_center (b : Block) (d : ℤ) : (b.rotate d).center = b.center := by
  by_cases hb : b.shape = Shape.O
  · rw [b.rotate_O d hb]
  · rw [Block.center, Block.center, b.rotate_shape d, b.rotate_eq_map d hb,
      List.getD_eq_getElem?_getD, List.getD_eq_getElem?_getD, List.getElem?_map]
    cases hx : b.bricks[b.shape.center_brick_index]? with
    | none => rfl
    | some c =>
      have hc : b.center = c := by rw [Block.center, List.getD_eq_getElem?_getD, hx]; rfl
      simp [hc, rotateBrick_center]

/-! ### Claim C4: the occupancy check -/

/-- C4: `Brick.can_move` with displacement `(dx, dy)` returns true iff
the target `(x + dx, y + dy)` lies in `[border_size, width] × [0,
height]` (both inclusive) and is not a key of the settled mapping, and
the block-level check is the conjunction of the per-brick checks over
its bricks. -/
theorem claim_can_move_iff (g : Game) (dx dy : ℤ) :
    (∀ br : Brick, br.can_move g dx dy = true ↔
      (border_size ≤ br.x + dx ∧ br.x + dx ≤ g.width ∧
        0 ≤ br.y + dy ∧ br.y + dy ≤ g.height ∧ (br.x + dx, br.y + dy) ∉ g.building)) ∧
    (∀ b : Block, b.can_move g dx dy = true ↔ ∀ br ∈ b.bricks, br.can_move g dx dy = true) := by
  constructor
  · intro br
    simp only [Brick.can_move, decide_eq_true_eq, Int.lt_add_one_iff]
  · intro b
    rw [Block.can_move, List.all_eq_true]

/-- A concrete game used to witness C4. -/
def gameC4w : Game :=
  { width := 6, height := 6, building := {(3, 5)}, blocks := [Shape.Z],
    current_block := Block.create Shape.Z 3 0, over := false }

/-- Witness for C4 at a concrete game and displacement, the inner
per-brick bounds discharged by evaluation. -/
theorem claim_can_move_iff_witness :
    ((∀ br : Brick, br.can_move gameC4w 1 0 = true ↔
      (border_size ≤ br.x + 1 ∧ br.x + 1 ≤ gameC4w.width ∧
        0 ≤ br.y + 0 ∧ br.y + 0 ≤ gameC4w.height ∧
        (br.x + 1, br.y + 0) ∉ gameC4w.building)) ∧
    (∀ b : Block, b.can_move gameC4w 1 0 = true ↔
      ∀ br ∈ b.bricks, br.can_move gameC4w 1 0 = true)) ∧
    gameC4w.current_block.can_move gameC4w 1 0 = true :=
  ⟨claim_can_move_iff gameC4w 1 0, by decide⟩

/-! ### Claim C5: O-block rotation -/

/-- An O-block at the spawn column of an empty standard board. -/
def gameO : Game :=
  { width := 20, height := 20, building := ∅, blocks := [Shape.O],
    current_block := Block.create Shape.O 10 0, over := false }

/-- C5 counterexample: the O-block's rotation feasibility check is the
inherited geometric `can_rotate`, not a specialised always-true one; at
the spawn row it reports `false` for direction `+1` (the rotated square
would leave the board through the top). -/
theorem claim_O_rotation_cex :
    gameO.current_block.shape = Shape.O ∧
    gameO.current_block.can_rotate gameO 1 = false := by
  constructor
  · rfl
  · decide

/-- C5 (amended): rotating an O-block in either direction is a no-op on
its cells (the `OBlock.rotate` override returns immediately); the
feasibility check `can_rotate`, being inherited and not specialised,
may still return `false`. -/
theorem claim_O_rotate_noop (b : Block) (d : ℤ) (hb : b.shape = Shape.O) :
    b.rotate d = b :=
  Block.rotate_O b d hb

/-- Witness for C5's amended theorem at a concrete O-block. -/
theorem claim_O_rotate_noop_witness :
    (Block.create Shape.O 10 0).shape = Shape.O ∧
    (Block.create Shape.O 10 0).rotate 1 = Block.create Shape.O 10 0 :=
  ⟨rfl, claim_O_rotate_noop (Block.create Shape.O 10 0) 1 rfl⟩

/-! ### Claim C6: rotation in one direction then the other -/

/-- C6: for a non-O block at any position, rotating with direction `+1`
and then `-1` (about the block's designated pivot, which rotation keeps
fixed) returns every brick to its original coordinates. -/
theorem claim_rotate_inverse (b : Block) (hb : b.shape ≠ Shape.O) :
    (b.rotate 1).rotate (-1) = b := by
  have h1 : (b.rotate 1).shape = b.shape := b.rotate_shape 1
  have hb1 : (b.rotate 1).shape ≠ Shape.O := by rw [h1]; exact hb
  apply Block.eq_of
  · rw [(b.rotate 1).rotate_shape (-1), h1]
  · rw [Block.rotate_eq_map _ _ hb1, Block.rotate_center, Block.rotate_eq_map b 1 hb,
      List.map_map]
    have hcomp : rotateBrick (-1) b.center ∘ rotateBrick 1 b.center = id :=
      funext fun br => rotateBrick_inv b.center br
    rw [hcomp, List.map_id]

/-- A concrete L-block used to witness C6. -/
def blockL : Block := Block.create Shape.L 5 7

/-- Witness for C6 at a concrete L-block. -/
theorem claim_rotate_inverse_witness :
    blockL.shape ≠ Shape.O ∧ (blockL.rotate 1).rotate (-1) = blockL :=
  ⟨by decide, claim_rotate_inverse blockL (by decide)⟩

/-! ### Claim C10: the pivot is fixed under rotation -/

/-- A concrete J-block used to witness C10. -/
def blockJ : Block := Block.create Shape.J 3 4

/-- C10: the pivot brick's rotation displacement is `(0, 0)`, rotation
leaves the pivot brick unchanged, and consequently the in-place
brick-by-brick mutation of `Block.rotate` applies to every brick
exactly the displacement about the original pivot that `can_rotate`
previously checked (a pointwise map). -/
theorem claim_rotation_pivot_fixed (b : Block) (d : ℤ) :
    b.center.get_rotation_coords d b.center = (0, 0) ∧
    (b.rotate d).center = b.center ∧
    (b.shape ≠ Shape.O →
      (b.rotate d).bricks = b.bricks.map (rotateBrick d b.center)) :=
  ⟨get_rotation_coords_self b.center d, b.rotate_center d, fun hb => b.rotate_eq_map d hb⟩

/-- Witness for C10 at a concrete J-block, the inner hypothesis
discharged. -/
theorem claim_rotation_pivot_fixed_witness :
    blockJ.center.get_rotation_coords 1 blockJ.center = (0, 0) ∧
    (blockJ.rotate 1).center = blockJ.center ∧
    (blockJ.rotate 1).bricks = blockJ.bricks.map (rotateBrick 1 blockJ.center) :=
  ⟨(claim_rotation_pivot_fixed blockJ 1).1, (claim_rotation_pivot_fixed blockJ 1).2.1,
    (claim_rotation_pivot_fixed blockJ 1).2.2 (by decide)⟩

/-! ### Moving or rotating, then checking occupancy at zero displacement -/

theorem Brick.can_move_shift (br : Brick) (g : Game) (dx dy : ℤ) :
    (br.move dx dy).can_move g 0 0 = br.can_move g dx dy := by
  simp [Brick.move, Brick.can_move]

theorem Block.can_move_after_move (b : Block) (g : Game) (dx dy : ℤ) :
    (b.move dx dy).can_move g 0 0 = b.can_move g dx dy := by
  simp only [Block.move, Block.can_move, List.all_map]
  exact congrArg b.bricks.all (funext fun br => Brick.can_move_shift br g dx dy)

theorem Block.can_move_after_rotate (b : Block) (g : Game) (dir : ℤ)
    (hb : b.shape ≠ Shape.O) :
    (b.rotate dir).can_move g 0 0 = b.can_rotate g dir := by
  rw [Block.can_move, b.rotate_eq_map dir hb, List.all_map, Block.can_rotate]
  exact congrArg b.bricks.all
    (funext fun br => Brick.can_move_shift br g
      (br.get_rotation_coords dir b.center).1 (br.get_rotation_coords dir b.center).2)

/-! ### Claim C8: infeasible non-lock moves are silent no-ops -/

/-- C8: an infeasible left, right or rotation request leaves the game
completely unchanged (piece cells and settled mapping included), and no
error path is taken (`step` returns `some`). -/
theorem claim_noop_on_infeasible (g : Game) (k : Key) (pick : ℕ)
    (hk : k = Key.left ∨ k = Key.right ∨ k = Key.rotUp ∨ k = Key.rotDown)
    (hgate : g.moveGate k = false) :
    g.step k pick = some g := by
  rw [Game.step]
  by_cases hover : g.over = true
  · simp [hover]
  · simp only [hover, if_false]
    rcases hk with rfl | rfl | rfl | rfl <;>
      simp only [Game.moveGate] at hgate <;>
      simp [Game.do_move, hgate]

/-- A valid I-block against the left wall: moving left is infeasible. -/
def gameBlockedLeft : Game :=
  { width := 20, height := 20, building := ∅, blocks := [Shape.I],
    current_block := Block.create Shape.I 3 0, over := false }

/-- Witness for C8: a blocked left move at a concrete game state. -/
theorem claim_noop_on_infeasible_witness :
    gameBlockedLeft.moveGate Key.left = false ∧
    gameBlockedLeft.step Key.left 0 = some gameBlockedLeft :=
  ⟨by decide, claim_noop_on_infeasible gameBlockedLeft Key.left 0 (Or.inl rfl) (by decide)⟩

/-! ### Claim C9: construction-time validation -/

/-- C9 counterexample: constructing a `Game` with non-positive width
and height succeeds — `Game.__init__` performs no validation, so the
fail-fast configuration error the claim asserts does not happen. -/
theorem claim_construction_cex :
    ((-5 : ℤ) ≤ 0 ∧ (-7 : ℤ) ≤ 0) ∧ (Game.init [Shape.I] (-5) (-7) 0).isSome = true := by
  exact ⟨⟨by decide, by decide⟩, by decide⟩

/-- C9 (amended): construction fails iff the shape catalog is empty (in
the source the failure is the `ValueError` from `random.randint` inside
the initial `create_block`, not a deliberate configuration check);
non-positive width or height are accepted silently. -/
theorem claim_construction_validation (blocks : List Shape) (width height : ℤ) (pick : ℕ) :
    (Game.init blocks width height pick).isSome = true ↔ blocks ≠ [] := by
  cases blocks with
  | nil => simp [Game.init, Game.create_block]
  | cons s rest => simp [Game.init, Game.create_block]

/-- Witness for C9's amended theorem at concrete catalogs. -/
theorem claim_construction_validation_witness :
    ((Game.init [Shape.I] 20 20 0).isSome = true ↔ [Shape.I] ≠ ([] : List Shape)) ∧
    ((Game.init ([] : List Shape) 20 20 0).isSome = true ↔ ([] : List Shape) ≠ []) :=
  ⟨claim_construction_validation [Shape.I] 20 20 0,
    claim_construction_validation [] 20 20 0⟩

/-! ### Claim C1: gated moves land in legal cells -/

/-- An O-block straddling the bottom boundary of an empty board: its
own cells are partly out of bounds but the rotated cells are all legal,
so the rotation gate passes while rotation itself is a no-op. -/
def gameC1 : Game :=
  { width := 20, height := 20, building := ∅, blocks := [Shape.O],
    current_block := Block.create Shape.O 5 20, over := false }

/-- C1 counterexample: a rotation request on `gameC1` passes its
feasibility gate and is applied, yet afterwards the piece (unchanged,
because `OBlock.rotate` is a no-op) still has a cell outside
`[border_size, width] × [0, height]`. -/
theorem claim_gated_move_valid_cex :
    gameC1.moveGate Key.rotUp = true ∧
    gameC1.step Key.rotUp 0 = some gameC1 ∧
    gameC1.current_block.can_move gameC1 0 0 = false :=
  ⟨by decide, by decide, by decide⟩

/-- C1 (amended): if the piece's current cells are legal (true in every
reachable falling state), then any move request that passes its
feasibility gate lands the piece with every cell inside
`[border_size, width] × [0, height]` and absent from the settled
mapping, which is itself unchanged.  The added precondition is needed
only because `OBlock.rotate` is a no-op while its gate checks the
rotated cells. -/
theorem claim_gated_move_valid (g : Game) (k : Key) (pick : ℕ)
    (hover : g.over = false)
    (hvalid : g.current_block.can_move g 0 0 = true)
    (hgate : g.moveGate k = true) :
    ∃ g', g.step k pick = some g' ∧
      g'.building = g.building ∧
      g'.current_block.can_move g' 0 0 = true := by
  rw [Game.step]
  simp only [hover, Bool.false_eq_true, if_false]
  cases k with
  | left =>
    rw [Game.moveGate] at hgate
    refine ⟨{ g with current_block := g.current_block.move (-1) 0 },
      by simp [Game.do_move, hgate], rfl, ?_⟩
    show (g.current_block.move (-1) 0).can_move g 0 0 = true
    rw [Block.can_move_after_move]
    exact hgate
  | right =>
    rw [Game.moveGate] at hgate
    refine ⟨{ g with current_block := g.current_block.move 1 0 },
      by simp [Game.do_move, hgate], rfl, ?_⟩
    show (g.current_block.move 1 0).can_move g 0 0 = true
    rw [Block.can_move_after_move]
    exact hgate
  | down =>
    rw [Game.moveGate] at hgate
    refine ⟨{ g with current_block := g.current_block.move 0 1 },
      by simp [Game.do_move, hgate], rfl, ?_⟩
    show (g.current_block.move 0 1).can_move g 0 0 = true
    rw [Block.can_move_after_move]
    exact hgate
  | rotUp =>
    rw [Game.moveGate] at hgate
    by_cases hO : g.current_block.shape = Shape.O
    · refine ⟨g, ?_, rfl, hvalid⟩
      simp [Game.do_move, hgate, Block.rotate_O _ _ hO]
    · refine ⟨{ g with current_block := g.current_block.rotate 1 },
        by simp [Game.do_move, hgate], rfl, ?_⟩
      show (g.current_block.rotate 1).can_move g 0 0 = true
      rw [Block.can_move_after_rotate _ _ _ hO]
      exact hgate
  | rotDown =>
    rw [Game.moveGate] at hgate
    by_cases hO : g.current_block.shape = Shape.O
    · refine ⟨g, ?_, rfl, hvalid⟩
      simp [Game.do_move, hgate, Block.rotate_O _ _ hO]
    · refine ⟨{ g with current_block := g.current_block.rotate (-1) },
        by simp [Game.do_move, hgate], rfl, ?_⟩
      show (g.current_block.rotate (-1)).can_move g 0 0 = true
      rw [Block.can_move_after_rotate _ _ _ hO]
      exact hgate

/-- A legal I-block high on an empty board, free to descend. -/
def gameC1w : Game :=
  { width := 20, height := 20, building := ∅, blocks := [Shape.I],
    current_block := Block.create Shape.I 10 0, over := false }

/-- Witness for C1's amended theorem: a feasible descend. -/
theorem claim_gated_move_valid_witness :
    gameC1w.current_block.can_move gameC1w 0 0 = true ∧
    gameC1w.moveGate Key.down = true ∧
    ∃ g', gameC1w.step Key.down 0 = some g' ∧
      g'.building = gameC1w.building ∧
      g'.current_block.can_move g' 0 0 = true :=
  ⟨by decide, by decide,
    claim_gated_move_valid gameC1w Key.down 0 rfl (by decide) (by decide)⟩

/-! ### Claim C7: the descend request -/

/-- C7: on a descend request, a feasible piece moves down by one;
otherwise the piece's cells are committed into the settled mapping and
completed rows cleared (`update_building`), a catalog shape is spawned
at the top-center, and the game becomes (and stays) terminal exactly
when the spawned piece fails the zero-displacement occupancy check; a
terminal game processes no further moves. -/
theorem claim_descend (g : Game) (pick : ℕ)
    (hover : g.over = false) (hcat : g.blocks ≠ []) :
    (g.current_block.can_move g 0 1 = true →
      g.step Key.down pick = some { g with current_block := g.current_block.move 0 1 }) ∧
    (g.current_block.can_move g 0 1 = false →
      ∃ g', g.step Key.down pick = some g' ∧
        g'.building = clear_rows g.width g.height
          (commit_bricks g.current_block.bricks g.building) ∧
        g'.current_block =
          Block.create (g.blocks.getD (pick % g.blocks.length) Shape.I) (g.width.fdiv 2) 0 ∧
        g'.over = !(g'.current_block.can_move g' 0 0)) ∧
    (∀ (g2 : Game) (k : Key) (pick2 : ℕ), g2.over = true → g2.step k pick2 = some g2) := by
  refine ⟨?_, ?_, ?_⟩
  · intro hmove
    simp [Game.step, hover, Game.do_move, hmove]
  · intro hmove
    have hE : g.blocks.isEmpty = false := by
      cases hbl : g.blocks with
      | nil => exact absurd hbl hcat
      | cons s rest => rfl
    have hcb : g.update_building.create_block pick = some
        { g.update_building with current_block :=
            (Block.create (g.blocks.getD (pick % g.blocks.length) Shape.I)
              (g.width.fdiv 2) 0) } := by
      show (if g.blocks.isEmpty = true then none else _) = _
      rw [hE]
      simp only [Bool.false_eq_true, if_false]
      rfl
    set gs : Game := { g.update_building with current_block :=
        (Block.create (g.blocks.getD (pick % g.blocks.length) Shape.I)
          (g.width.fdiv 2) 0) } with hgsdef
    have hst : g.step Key.down pick =
        some (if gs.current_block.can_move gs 0 0 then gs else { gs with over := true }) := by
      rw [Game.step]
      simp only [hover, Bool.false_eq_true, if_false]
      simp only [Game.do_move, hmove, Bool.false_eq_true, if_false]
      rw [hcb]
    cases hcm : gs.current_block.can_move gs 0 0 with
    | false =>
      refine ⟨{ gs with over := true }, ?_, rfl, rfl, ?_⟩
      · rw [hst, hcm]
        simp
      · show true = !({ gs with over := true }.current_block.can_move { gs with over := true } 0 0)
        have h2 : { gs with over := true }.current_block.can_move { gs with over := true } 0 0 =
            gs.current_block.can_move gs 0 0 := rfl
        rw [h2, hcm]
        rfl
    | true =>
      refine ⟨gs, ?_, rfl, rfl, ?_⟩
      · rw [hst, hcm]
        simp
      · rw [hcm]
        show g.over = !true
        rw [hover]
        rfl
  · intro g2 k pick2 h2
    simp [Game.step, h2]

/-- A locked O-block resting on the floor of a small board. -/
def gameC7w : Game :=
  { width := 4, height := 4, building := ∅, blocks := [Shape.O],
    current_block := Block.create Shape.O 2 3, over := false }

/-- Witness for C7: a descend at the floor locks the piece. -/
theorem claim_descend_witness :
    gameC7w.current_block.can_move gameC7w 0 1 = false ∧
    ∃ g', gameC7w.step Key.down 0 = some g' ∧
      g'.building = clear_rows gameC7w.width gameC7w.height
        (commit_bricks gameC7w.current_block.bricks gameC7w.building) ∧
      g'.current_block =
        Block.create (gameC7w.blocks.getD (0 % gameC7w.blocks.length) Shape.I)
          (gameC7w.width.fdiv 2) 0 ∧
      g'.over = !(g'.current_block.can_move g' 0 0) :=
  ⟨by decide, (claim_descend gameC7w 0 rfl (by decide)).2.1 (by decide)⟩

/-! ### Characterising `move_bricks_down` (one column of `remove_row`) -/

/-- Description of one column of a cleared row: the cell survives
unshifted if its row is outside `[lo, y]`, or it is the copy, one row
lower, of a cell that was in rows `[lo, y - 1]`.  (`lo` is
`border_size`; the deleted cell at row `y` itself is gone.)  This is a
specification device used to state the theorems, not part of the
embedding. -/
def colShift (lo y : ℤ) (B : Finset (ℤ × ℤ)) (p : ℤ × ℤ) : Prop :=
  (p ∈ B ∧ (p.2 < lo ∨ y < p.2)) ∨ (lo < p.2 ∧ p.2 ≤ y ∧ (p.1, p.2 - 1) ∈ B)

instance (lo y : ℤ) (B : Finset (ℤ × ℤ)) (p : ℤ × ℤ) : Decidable (colShift lo y B p) := by
  rw [colShift]
  infer_instance

theorem moveBricksDownFrom_mem (fx fy : ℤ) (n : ℕ) :
    ∀ (lo : ℤ) (B : Finset (ℤ × ℤ)), (fy + 1 - lo).toNat = n → (fx, fy) ∉ B →
      ∀ p : ℤ × ℤ,
      (p ∈ moveBricksDownFrom lo fx fy B ↔
        (p ∈ B ∧ ¬(p.1 = fx ∧ lo ≤ p.2 ∧ p.2 < fy)) ∨
        (p.1 = fx ∧ lo < p.2 ∧ p.2 ≤ fy ∧ (fx, p.2 - 1) ∈ B)) := by
  induction n with
  | zero =>
    intro lo B hn hB p
    have hlt : fy < lo := by omega
    rw [moveBricksDownFrom, intRangeRev_eq_nil lo fy hlt, List.foldl_nil]
    constructor
    · intro hp
      refine Or.inl ⟨hp, ?_⟩
      rintro ⟨-, h1, h2⟩
      omega
    · rintro (⟨hp, -⟩ | ⟨-, h1, h2, -⟩)
      · exact hp
      · omega
  | succ n ih =>
    intro lo B hn hB p
    have hle : lo ≤ fy := by omega
    unfold moveBricksDownFrom
    rw [intRangeRev_eq_append lo fy hle, List.foldl_append, List.foldl_cons, List.foldl_nil]
    have hfold : (intRangeRev (lo + 1) fy).foldl
        (fun C y => if (fx, y) ∈ C then insert (fx, y + 1) (C.erase (fx, y)) else C) B =
        moveBricksDownFrom (lo + 1) fx fy B := rfl
    rw [hfold]
    have ihR := ih (lo + 1) B (by omega) hB
    have hRlo : (fx, lo) ∈ moveBricksDownFrom (lo + 1) fx fy B ↔ (fx, lo) ∈ B := by
      rw [ihR (fx, lo)]
      constructor
      · rintro (⟨h, -⟩ | ⟨-, h1, -⟩)
        · exact h
        · omega
      · intro h
        refine Or.inl ⟨h, ?_⟩
        rintro ⟨-, h1, -⟩
        omega
    by_cases hin : (fx, lo) ∈ B
    · rw [if_pos (hRlo.mpr hin), Finset.mem_insert, Finset.mem_erase, ihR p]
      obtain ⟨p1, p2⟩ := p
      simp only [Prod.mk.injEq, ne_eq]
      constructor
      · rintro (⟨hx1, hx2⟩ | ⟨hne, (⟨hpB, hcond⟩ | ⟨hx, h1, h2, h3⟩)⟩)
        · subst hx1
          subst hx2
          by_cases hfy : lo + 1 ≤ fy
          · refine Or.inr ⟨rfl, by omega, hfy, ?_⟩
            have he : lo + 1 - 1 = lo := by omega
            rw [he]
            exact hin
          · have he : fy = lo := by omega
            rw [← he] at hin
            exact absurd hin hB
        · refine Or.inl ⟨hpB, ?_⟩
          rintro ⟨hx, hl, hf⟩
          by_cases hp2lo : p2 = lo
          · exact hne ⟨hx, hp2lo⟩
          · exact hcond ⟨hx, by omega, hf⟩
        · exact Or.inr ⟨hx, by omega, h2, h3⟩
      · rintro (⟨hpB, hcond⟩ | ⟨hx, h1, h2, h3⟩)
        · refine Or.inr ⟨?_, Or.inl ⟨hpB, ?_⟩⟩
          · rintro ⟨hx, hp2⟩
            by_cases hfy : lo < fy
            · exact hcond ⟨hx, by omega, by omega⟩
            · have he : fy = lo := by omega
              have hp2' : p2 = lo := hp2
              have hpfy : (p1, p2) = (fx, fy) := Prod.ext hx (by show p2 = fy; omega)
              rw [hpfy] at hpB
              exact absurd hpB hB
          · rintro ⟨hx, hl, hf⟩
            exact hcond ⟨hx, by omega, hf⟩
        · by_cases hp2 : p2 = lo + 1
          · exact Or.inl ⟨hx, hp2⟩
          · refine Or.inr ⟨?_, Or.inr ⟨hx, by omega, h2, h3⟩⟩
            rintro ⟨-, hp2lo⟩
            omega
    · rw [if_neg (fun hc => hin (hRlo.mp hc)), ihR p]
      obtain ⟨p1, p2⟩ := p
      constructor
      · rintro (⟨hpB, hcond⟩ | ⟨hx, h1, h2, h3⟩)
        · refine Or.inl ⟨hpB, ?_⟩
          rintro ⟨hx, hl, hf⟩
          by_cases hp2lo : p2 = lo
          · have hplo : (p1, p2) = (fx, lo) := Prod.ext hx hp2lo
            rw [hplo] at hpB
            exact absurd hpB hin
          · exact hcond ⟨hx, by omega, hf⟩
        · exact Or.inr ⟨hx, by omega, h2, h3⟩
      · rintro (⟨hpB, hcond⟩ | ⟨hx, h1, h2, h3⟩)
        · refine Or.inl ⟨hpB, ?_⟩
          rintro ⟨hx, hl, hf⟩
          exact hcond ⟨hx, by omega, hf⟩
        · by_cases hp2 : p2 = lo + 1
          · have he : p2 - 1 = lo := by omega
            rw [he] at h3
            exact absurd h3 hin
          · exact Or.inr ⟨hx, by omega, h2, h3⟩

theorem moveBricksDownFrom_card (fx fy : ℤ) (n : ℕ) :
    ∀ (lo : ℤ) (B : Finset (ℤ × ℤ)), (fy + 1 - lo).toNat = n → (fx, fy) ∉ B →
      (moveBricksDownFrom lo fx fy B).card = B.card := by
  induction n with
  | zero =>
    intro lo B hn hB
    rw [moveBricksDownFrom, intRangeRev_eq_nil lo fy (by omega), List.foldl_nil]
  | succ n ih =>
    intro lo B hn hB
    have hle : lo ≤ fy := by omega
    unfold moveBricksDownFrom
    rw [intRangeRev_eq_append lo fy hle, List.foldl_append, List.foldl_cons, List.foldl_nil]
    have hfold : (intRangeRev (lo + 1) fy).foldl
        (fun C y => if (fx, y) ∈ C then insert (fx, y + 1) (C.erase (fx, y)) else C) B =
        moveBricksDownFrom (lo + 1) fx fy B := rfl
    rw [hfold]
    have hcardR : (moveBricksDownFrom (lo + 1) fx fy B).card = B.card :=
      ih (lo + 1) B (by omega) hB
    have ihR := moveBricksDownFrom_mem fx fy ((fy + 1 - (lo + 1)).toNat) (lo + 1) B rfl hB
    by_cases hin : (fx, lo) ∈ moveBricksDownFrom (lo + 1) fx fy B
    · rw [if_pos hin]
      have hloB : (fx, lo) ∈ B := by
        rcases (ihR (fx, lo)).mp hin with ⟨h, -⟩ | ⟨-, h1, -⟩
        · exact h
        · omega
      have hnotin : (fx, lo + 1) ∉ moveBricksDownFrom (lo + 1) fx fy B := by
        intro hcon
        rcases (ihR (fx, lo + 1)).mp hcon with ⟨h1, h2⟩ | ⟨-, h1, -⟩
        · have h4 : ¬ (lo + 1 < fy) := fun hc => h2 ⟨rfl, by omega, hc⟩
          have h5 : fy = lo + 1 ∨ fy = lo := by omega
          rcases h5 with h5 | h5
          · rw [← h5] at h1
            exact hB h1
          · rw [← h5] at hloB
            exact hB hloB
        · omega
      rw [Finset.card_insert_of_not_mem (fun hc => hnotin (Finset.mem_of_mem_erase hc)),
        Finset.card_erase_of_mem hin]
      have hpos : 0 < (moveBricksDownFrom (lo + 1) fx fy B).card :=
        Finset.card_pos.mpr ⟨_, hin⟩
      omega
    · rw [if_neg hin]
      exact hcardR

/-! ### Characterising `remove_row` -/

theorem colOp_mem_of_ne (lo y fx : ℤ) (B : Finset (ℤ × ℤ)) (p : ℤ × ℤ) (hp : p.1 ≠ fx) :
    p ∈ moveBricksDownFrom lo fx y (B.erase (fx, y)) ↔ p ∈ B := by
  rw [moveBricksDownFrom_mem fx y ((y + 1 - lo).toNat) lo _ rfl (Finset.not_mem_erase _ _) p]
  constructor
  · rintro (⟨h, -⟩ | ⟨h1, -⟩)
    · exact Finset.mem_of_mem_erase h
    · exact absurd h1 hp
  · intro h
    refine Or.inl ⟨Finset.mem_erase_of_ne_of_mem ?_ h, ?_⟩
    · intro hc
      exact hp (by rw [hc])
    · rintro ⟨h1, -⟩
      exact hp h1

theorem colOp_mem_of_eq (lo y fx : ℤ) (B : Finset (ℤ × ℤ)) (p : ℤ × ℤ)
    (hp : p.1 = fx) (hloy : lo ≤ y) :
    p ∈ moveBricksDownFrom lo fx y (B.erase (fx, y)) ↔ colShift lo y B p := by
  rw [moveBricksDownFrom_mem fx y ((y + 1 - lo).toNat) lo _ rfl (Finset.not_mem_erase _ _) p,
    colShift]
  obtain ⟨p1, p2⟩ := p
  constructor
  · rintro (⟨h1, h2⟩ | ⟨-, h1, h2, h3⟩)
    · have hmem := Finset.mem_of_mem_erase h1
      have hne : (p1, p2) ≠ (fx, y) := Finset.ne_of_mem_erase h1
      have hp2y : p2 ≠ y := by
        intro hc
        exact hne (Prod.ext hp hc)
      refine Or.inl ⟨hmem, ?_⟩
      have h2' : ¬(lo ≤ p2 ∧ p2 < y) := fun hc => h2 ⟨hp, hc.1, hc.2⟩
      omega
    · refine Or.inr ⟨h1, h2, ?_⟩
      have h3' := Finset.mem_of_mem_erase h3
      rw [hp]
      exact h3'
  · rintro (⟨h1, h2⟩ | ⟨h1, h2, h3⟩)
    · refine Or.inl ⟨Finset.mem_erase_of_ne_of_mem ?_ h1, ?_⟩
      · intro hc
        have hc2 : p2 = y := congrArg Prod.snd hc
        omega
      · rintro ⟨-, h4, h5⟩
        omega
    · refine Or.inr ⟨hp, h1, h2, Finset.mem_erase_of_ne_of_mem ?_ ?_⟩
      · intro hc
        have hc2 : p2 - 1 = y := congrArg Prod.snd hc
        omega
      · rw [← hp]
        exact h3

theorem colOp_card (lo y fx : ℤ) (B : Finset (ℤ × ℤ)) (hin : (fx, y) ∈ B) :
    (moveBricksDownFrom lo fx y (B.erase (fx, y))).card + 1 = B.card := by
  rw [moveBricksDownFrom_card fx y ((y + 1 - lo).toNat) lo _ rfl (Finset.not_mem_erase _ _),
    Finset.card_erase_of_mem hin]
  have hpos : 0 < B.card := Finset.card_pos.mpr ⟨_, hin⟩
  omega

theorem removeRowFold_mem (lo y : ℤ) (hloy : lo ≤ y) :
    ∀ (xs : List ℤ), xs.Nodup → ∀ (B : Finset (ℤ × ℤ)) (p : ℤ × ℤ),
      (p ∈ xs.foldl (fun C x => moveBricksDownFrom lo x y (C.erase (x, y))) B ↔
        (if p.1 ∈ xs then colShift lo y B p else p ∈ B)) := by
  intro xs
  induction xs with
  | nil =>
    intro _ B p
    simp
  | cons x xs ih =>
    intro hnd B p
    obtain ⟨hx_notin, hnd'⟩ := List.nodup_cons.mp hnd
    rw [List.foldl_cons, ih hnd' (moveBricksDownFrom lo x y (B.erase (x, y))) p]
    by_cases hmem : p.1 ∈ xs
    · rw [if_pos hmem, if_pos (List.mem_cons_of_mem x hmem)]
      have hne : p.1 ≠ x := fun hc => hx_notin (hc ▸ hmem)
      rw [colShift, colShift, colOp_mem_of_ne lo y x B p hne,
        colOp_mem_of_ne lo y x B (p.1, p.2 - 1) hne]
    · by_cases hpx : p.1 = x
      · rw [if_neg hmem, if_pos (by rw [hpx]; exact List.mem_cons_self x xs)]
        exact colOp_mem_of_eq lo y x B p hpx hloy
      · have hno : p.1 ∉ x :: xs := by
          intro hc
          rcases List.mem_cons.mp hc with hc | hc
          · exact hpx hc
          · exact hmem hc
        rw [if_neg hmem, if_neg hno]
        exact colOp_mem_of_ne lo y x B p hpx

theorem removeRowFold_card (lo y : ℤ) :
    ∀ (xs : List ℤ), xs.Nodup → ∀ (B : Finset (ℤ × ℤ)),
      (∀ x ∈ xs, (x, y) ∈ B) →
      (xs.foldl (fun C x => moveBricksDownFrom lo x y (C.erase (x, y))) B).card + xs.length
        = B.card := by
  intro xs
  induction xs with
  | nil =>
    intro _ B _
    simp
  | cons x xs ih =>
    intro hnd B hall
    obtain ⟨hx_notin, hnd'⟩ := List.nodup_cons.mp hnd
    rw [List.foldl_cons]
    have h1 : (moveBricksDownFrom lo x y (B.erase (x, y))).card + 1 = B.card :=
      colOp_card lo y x B (hall x (List.mem_cons_self x xs))
    have hall' : ∀ x' ∈ xs, (x', y) ∈ moveBricksDownFrom lo x y (B.erase (x, y)) := by
      intro x' hx'
      have hne : x' ≠ x := fun hc => hx_notin (hc ▸ hx')
      rw [colOp_mem_of_ne lo y x B (x', y) hne]
      exact hall x' (List.mem_cons_of_mem _ hx')
    have h2 := ih hnd' (moveBricksDownFrom lo x y (B.erase (x, y))) hall'
    rw [List.length_cons]
    omega

theorem row_is_completed_iff (width : ℤ) (B : Finset (ℤ × ℤ)) (y : ℤ) :
    row_is_completed width B y = true ↔
      ∀ x : ℤ, border_size ≤ x → x ≤ width → (x, y) ∈ B := by
  rw [row_is_completed, List.all_eq_true]
  constructor
  · intro h x h1 h2
    have := h x ((mem_intRange x border_size width).mpr ⟨h1, h2⟩)
    exact of_decide_eq_true this
  · intro h x hx
    obtain ⟨h1, h2⟩ := (mem_intRange x border_size width).mp hx
    exact decide_eq_true (h x h1 h2)

theorem remove_row_mem (width y : ℤ) (B : Finset (ℤ × ℤ)) (hy : border_size ≤ y)
    (p : ℤ × ℤ) :
    p ∈ remove_row width B y ↔
      (if border_size ≤ p.1 ∧ p.1 ≤ width then colShift border_size y B p else p ∈ B) := by
  have hrr : remove_row width B y =
      (intRange border_size width).foldl
        (fun C x => moveBricksDownFrom border_size x y (C.erase (x, y))) B := rfl
  rw [hrr, removeRowFold_mem border_size y hy (intRange border_size width)
    (intRange_nodup _ _) B p]
  by_cases hp : border_size ≤ p.1 ∧ p.1 ≤ width
  · rw [if_pos ((mem_intRange _ _ _).mpr hp), if_pos hp]
  · rw [if_neg (fun hc => hp ((mem_intRange _ _ _).mp hc)), if_neg hp]

theorem remove_row_card (width y : ℤ) (B : Finset (ℤ × ℤ))
    (hcomp : row_is_completed width B y = true) :
    (remove_row width B y).card + width.toNat = B.card := by
  have hrr : remove_row width B y =
      (intRange border_size width).foldl
        (fun C x => moveBricksDownFrom border_size x y (C.erase (x, y))) B := rfl
  have hall : ∀ x ∈ intRange border_size width, (x, y) ∈ B := by
    intro x hx
    obtain ⟨h1, h2⟩ := (mem_intRange x border_size width).mp hx
    exact (row_is_completed_iff width B y).mp hcomp x h1 h2
  have hlen : (intRange border_size width).length = width.toNat := by
    rw [intRange_length]
    have hbs : border_size = 1 := rfl
    omega
  rw [hrr, ← hlen]
  exact removeRowFold_card border_size y (intRange border_size width)
    (intRange_nodup _ _) B hall

/-! ### Claim C2: `remove_row` on a completed row -/

/-- The settled mapping `{(1,2), (2,2), (1,0)}` : row 2 of a width-2
board is complete and there is one settled cell at row 0 (legal: rows
start at 0 while the shifted range starts at `border_size = 1`). -/
def buildingRow0 : Finset (ℤ × ℤ) := {(1, 2), (2, 2), (1, 0)}

/-- C2 counterexample: removing completed row 2 does NOT re-insert the
settled cell `(1, 0)` (whose row `0 < 2`) at row 1 — the shift loop
scans only rows `[border_size, y]`, so cells at row 0 stay put. -/
theorem claim_remove_row_cex :
    row_is_completed 2 buildingRow0 2 = true ∧
    ((1 : ℤ), (0 : ℤ)) ∈ buildingRow0 ∧ (0 : ℤ) < 2 ∧
    ((1 : ℤ), (1 : ℤ)) ∉ remove_row 2 buildingRow0 2 ∧
    ((1 : ℤ), (0 : ℤ)) ∈ remove_row 2 buildingRow0 2 := by
  refine ⟨by decide, by decide, by decide, by decide, by decide⟩

/-- C2 (amended): if row `y` is completed, `remove_row` deletes the
`width` settled entries of row `y` (one per column of
`[border_size, width]`), re-inserts every settled cell with row in
`[border_size, y - 1]` one row lower (cells at rows `< border_size`,
i.e. row 0, are outside the shifted range and stay put, as do all
columns outside `[border_size, width]`), and — the descending scan of
`move_bricks_down` never overwriting a not-yet-moved cell — the settled
cell count drops by exactly `width`. -/
theorem claim_remove_row (width y : ℤ) (B : Finset (ℤ × ℤ))
    (hcomp : row_is_completed width B y = true) (hy : border_size ≤ y) :
    (∀ p : ℤ × ℤ, p ∈ remove_row width B y ↔
      (if border_size ≤ p.1 ∧ p.1 ≤ width then colShift border_size y B p else p ∈ B)) ∧
    (remove_row width B y).card + width.toNat = B.card :=
  ⟨remove_row_mem width y B hy, remove_row_card width y B hcomp⟩

/-- A completed row 3 of a width-2 board with a settled cell above. -/
def buildingC2w : Finset (ℤ × ℤ) := {(1, 3), (2, 3), (1, 1)}

/-! ### Characterising the clearing pass of `update_building` -/

/-- The clearing loop of `update_building`, generalised over the first
scanned row `lo` (the source starts at `border_size`). -/
def clearRowsFrom (width h lo : ℤ) (B : Finset (ℤ × ℤ)) : Finset (ℤ × ℤ) :=
  (intRange lo h).foldl
    (fun C y => if row_is_completed width C y then remove_row width C y else C) B

/-- How many completed rows of the pre-clearing state `B` lie strictly
between row `r` and row `upTo` (within the scanned range
`[border_size, h]`): the number of times the clearing pass shifts a
surviving cell of row `r` down.  Specification device. -/
def shiftCount (width h : ℤ) (B : Finset (ℤ × ℤ)) (r upTo : ℤ) : ℕ :=
  ((Finset.Icc border_size h).filter
    (fun c => r < c ∧ c < upTo ∧ row_is_completed width B c = true)).card

/-- Description of the settled mapping after the clearing pass has
processed all rows `< upTo`: a cell below `border_size` (row 0) is
untouched, a cell in a row not yet scanned is untouched, and otherwise
the cell is the image of a surviving original cell `(p.1, r)` (row `r`
scanned, not completed) moved down once per completed row strictly
below... i.e. `p.2 = r + shiftCount r upTo`.  Specification device. -/
def clearSpec (width h : ℤ) (B : Finset (ℤ × ℤ)) (upTo : ℤ) (p : ℤ × ℤ) : Prop :=
  (p.2 < border_size ∧ p ∈ B) ∨ (upTo ≤ p.2 ∧ p ∈ B) ∨
  (∃ r : ℤ, border_size ≤ r ∧ r < upTo ∧ (p.1, r) ∈ B ∧
    ¬(r ≤ h ∧ row_is_completed width B r = true) ∧
    p.2 = r + (shiftCount width h B r upTo : ℤ))

theorem shiftCount_le (width h : ℤ) (B : Finset (ℤ × ℤ)) (r upTo : ℤ) (hr : r < upTo) :
    (shiftCount width h B r upTo : ℤ) ≤ upTo - 1 - r := by
  have hsub : (Finset.Icc border_size h).filter
      (fun c => r < c ∧ c < upTo ∧ row_is_completed width B c = true) ⊆
      Finset.Ioo r upTo := by
    intro c hc
    rw [Finset.mem_filter] at hc
    rw [Finset.mem_Ioo]
    exact ⟨hc.2.1, hc.2.2.1⟩
  have h1 := Finset.card_le_card hsub
  rw [Int.card_Ioo] at h1
  have h2 : shiftCount width h B r upTo ≤ (upTo - r - 1).toNat := h1
  omega

theorem shiftCount_step (width h : ℤ) (B : Finset (ℤ × ℤ)) (r upTo : ℤ) (hr : r < upTo)
    (h1 : border_size ≤ upTo) (h2 : upTo ≤ h) :
    shiftCount width h B r (upTo + 1) =
      shiftCount width h B r upTo +
        (if row_is_completed width B upTo = true then 1 else 0) := by
  rw [shiftCount, shiftCount]
  by_cases hcomp : row_is_completed width B upTo = true
  · rw [if_pos hcomp]
    have hset : (Finset.Icc border_size h).filter
        (fun c => r < c ∧ c < upTo + 1 ∧ row_is_completed width B c = true) =
        insert upTo ((Finset.Icc border_size h).filter
          (fun c => r < c ∧ c < upTo ∧ row_is_completed width B c = true)) := by
      ext c
      rw [Finset.mem_insert, Finset.mem_filter, Finset.mem_filter]
      constructor
      · rintro ⟨hc1, hc3, hc4, hc5⟩
        by_cases hcu : c = upTo
        · exact Or.inl hcu
        · exact Or.inr ⟨hc1, hc3, by omega, hc5⟩
      · rintro (rfl | ⟨hc1, hc2, hc3, hc4⟩)
        · exact ⟨Finset.mem_Icc.mpr ⟨h1, h2⟩, hr, by omega, hcomp⟩
        · exact ⟨hc1, hc2, by omega, hc4⟩
    rw [hset, Finset.card_insert_of_not_mem]
    intro hc
    rw [Finset.mem_filter] at hc
    omega
  · rw [if_neg hcomp, Nat.add_zero]
    apply congrArg Finset.card
    apply Finset.filter_congr
    intro c _
    constructor
    · rintro ⟨hc1, hc2, hc3⟩
      refine ⟨hc1, ?_, hc3⟩
      by_cases hcu : c = upTo
      · rw [hcu] at hc3
        exact absurd hc3 hcomp
      · omega
    · rintro ⟨hc1, hc2, hc3⟩
      exact ⟨hc1, by omega, hc3⟩

theorem shiftCount_self (width h : ℤ) (B : Finset (ℤ × ℤ)) (upTo : ℤ) :
    shiftCount width h B upTo (upTo + 1) = 0 := by
  rw [shiftCount, Finset.card_eq_zero, Finset.filter_eq_empty_iff]
  intro c _
  rintro ⟨hc1, hc2, -⟩
  omega

theorem row_is_completed_congr (width : ℤ) (B C : Finset (ℤ × ℤ)) (y y' : ℤ)
    (hBC : ∀ x : ℤ, border_size ≤ x → x ≤ width → ((x, y) ∈ B ↔ (x, y') ∈ C)) :
    row_is_completed width B y = row_is_completed width C y' := by
  rw [Bool.eq_iff_iff, row_is_completed_iff, row_is_completed_iff]
  constructor
  · intro hall x h1 h2
    exact (hBC x h1 h2).mp (hall x h1 h2)
  · intro hall x h1 h2
    exact (hBC x h1 h2).mpr (hall x h1 h2)

theorem clearRowsFrom_invariant (width h : ℤ) (B₀ : Finset (ℤ × ℤ))
    (hw : border_size ≤ width) (n : ℕ) :
    ∀ (lo : ℤ) (Bc : Finset (ℤ × ℤ)),
      (h + 1 - lo).toNat = n → border_size ≤ lo → lo ≤ h + 1 →
      (∀ p : ℤ × ℤ, border_size ≤ p.1 → p.1 ≤ width →
        (p ∈ Bc ↔ clearSpec width h B₀ lo p)) →
      (∀ p : ℤ × ℤ, ¬(border_size ≤ p.1 ∧ p.1 ≤ width) → (p ∈ Bc ↔ p ∈ B₀)) →
      (∀ r : ℤ, border_size ≤ r → r < lo → row_is_completed width Bc r = false) →
      ((∀ p : ℤ × ℤ, border_size ≤ p.1 → p.1 ≤ width →
          (p ∈ clearRowsFrom width h lo Bc ↔ clearSpec width h B₀ (h + 1) p)) ∧
        (∀ p : ℤ × ℤ, ¬(border_size ≤ p.1 ∧ p.1 ≤ width) →
          (p ∈ clearRowsFrom width h lo Bc ↔ p ∈ B₀)) ∧
        (∀ r : ℤ, border_size ≤ r → r ≤ h →
          row_is_completed width (clearRowsFrom width h lo Bc) r = false)) := by
  induction n with
  | zero =>
    intro lo Bc hn hlo1 hlo2 hInv hOut hIncomp
    have hlo : lo = h + 1 := by omega
    have hid : clearRowsFrom width h lo Bc = Bc := by
      unfold clearRowsFrom
      rw [intRange_eq_nil lo h (by omega), List.foldl_nil]
    rw [hid]
    subst hlo
    exact ⟨hInv, hOut, fun r h1 h2 => hIncomp r h1 (by omega)⟩
  | succ n ih =>
    intro lo Bc hn hlo1 hlo2 hInv hOut hIncomp
    have hle : lo ≤ h := by omega
    have hunf : clearRowsFrom width h lo Bc =
        clearRowsFrom width h (lo + 1)
          (if row_is_completed width Bc lo then remove_row width Bc lo else Bc) := by
      unfold clearRowsFrom
      rw [intRange_eq_cons lo h hle, List.foldl_cons]
    rw [hunf]
    have hrow : row_is_completed width Bc lo = row_is_completed width B₀ lo := by
      apply row_is_completed_congr
      intro x h1 h2
      rw [hInv (x, lo) h1 h2, clearSpec]
      dsimp only
      constructor
      · rintro (⟨h3, -⟩ | ⟨-, h4⟩ | ⟨r, hr1, hr2, hr3, -, hr5⟩)
        · exact absurd h3 (by omega)
        · exact h4
        · exfalso
          have hb := shiftCount_le width h B₀ r lo hr2
          omega
      · intro h4
        exact Or.inr (Or.inl ⟨le_refl lo, h4⟩)
    by_cases hcomp : row_is_completed width B₀ lo = true
    · -- row `lo` is completed: the step removes it
      have hstep : (if row_is_completed width Bc lo then remove_row width Bc lo else Bc) =
          remove_row width Bc lo := by
        rw [hrow, hcomp]
        simp
      rw [hstep]
      apply ih (lo + 1) (remove_row width Bc lo) (by omega) (by omega) (by omega)
      · -- the membership invariant advances past the removed row
        intro p h1 h2
        rw [remove_row_mem width lo Bc hlo1 p, if_pos ⟨h1, h2⟩, colShift,
          hInv p h1 h2, hInv (p.1, p.2 - 1) h1 h2]
        simp only [clearSpec]
        obtain ⟨p1, p2⟩ := p
        dsimp only
        constructor
        · rintro (⟨hspec, hside⟩ | ⟨hb1, hb2, hspec'⟩)
          · rcases hspec with ⟨h3, h4⟩ | ⟨h3, h4⟩ | ⟨r, hr1, hr2, hr3, hr4, hr5⟩
            · exact Or.inl ⟨h3, h4⟩
            · rcases hside with hside | hside
              · exact absurd hside (by omega)
              · exact Or.inr (Or.inl ⟨by omega, h4⟩)
            · exfalso
              have hb := shiftCount_le width h B₀ r lo hr2
              rcases hside with hside | hside <;> omega
          · rcases hspec' with ⟨h3, -⟩ | ⟨h3, -⟩ | ⟨r, hr1, hr2, hr3, hr4, hr5⟩
            · exact absurd h3 (by omega)
            · exact absurd h3 (by omega)
            · have hstep2 : shiftCount width h B₀ r (lo + 1) =
                  shiftCount width h B₀ r lo + 1 := by
                rw [shiftCount_step width h B₀ r lo hr2 hlo1 hle, if_pos hcomp]
              exact Or.inr (Or.inr ⟨r, hr1, by omega, hr3, hr4, by omega⟩)
        · rintro (⟨h3, h4⟩ | ⟨h3, h4⟩ | ⟨r, hr1, hr2, hr3, hr4, hr5⟩)
          · exact Or.inl ⟨Or.inl ⟨h3, h4⟩, Or.inl (by omega)⟩
          · exact Or.inl ⟨Or.inr (Or.inl ⟨by omega, h4⟩), Or.inr (by omega)⟩
          · have hrlo : r ≠ lo := by
              intro hc
              apply hr4
              rw [hc]
              exact ⟨hle, hcomp⟩
            have hrlt : r < lo := by omega
            have hstep2 : shiftCount width h B₀ r (lo + 1) =
                shiftCount width h B₀ r lo + 1 := by
              rw [shiftCount_step width h B₀ r lo hrlt hlo1 hle, if_pos hcomp]
            have hb := shiftCount_le width h B₀ r lo hrlt
            refine Or.inr ⟨by omega, by omega, Or.inr (Or.inr ⟨r, hr1, hrlt, hr3, hr4, by omega⟩)⟩
      · -- columns outside the board are untouched
        intro p hp
        rw [remove_row_mem width lo Bc hlo1 p, if_neg hp]
        exact hOut p hp
      · -- rows already scanned stay incomplete after the removal
        intro r h1 h2
        rcases eq_or_lt_of_le h1 with h1e | h1lt
        · -- row `border_size` has been emptied
          cases hrc : row_is_completed width (remove_row width Bc lo) r with
          | false => rfl
          | true =>
            exfalso
            have hx := (row_is_completed_iff width (remove_row width Bc lo) r).mp hrc
              border_size (le_refl _) hw
            rw [remove_row_mem width lo Bc hlo1 (border_size, r),
              if_pos ⟨le_refl _, hw⟩, colShift] at hx
            dsimp only at hx
            rcases hx with ⟨-, hside⟩ | ⟨hb1, -, -⟩
            · rcases hside with hs | hs <;> omega
            · omega
        · -- row `r` is the old row `r - 1`
          have hcongr : row_is_completed width (remove_row width Bc lo) r =
              row_is_completed width Bc (r - 1) := by
            apply row_is_completed_congr
            intro x hx1 hx2
            rw [remove_row_mem width lo Bc hlo1 (x, r), if_pos ⟨hx1, hx2⟩, colShift]
            dsimp only
            constructor
            · rintro (⟨hmem, hside⟩ | ⟨-, -, hmem⟩)
              · exfalso
                rcases hside with hs | hs <;> omega
              · exact hmem
            · intro hmem
              exact Or.inr ⟨by omega, by omega, hmem⟩
          rw [hcongr]
          exact hIncomp (r - 1) (by omega) (by omega)
    · -- row `lo` is not completed: the step is a no-op
      have hcf : row_is_completed width B₀ lo = false := by
        cases hb : row_is_completed width B₀ lo with
        | false => rfl
        | true => exact absurd hb hcomp
      have hstep : (if row_is_completed width Bc lo then remove_row width Bc lo else Bc) =
          Bc := by
        rw [hrow, hcf]
        simp
      rw [hstep]
      apply ih (lo + 1) Bc (by omega) (by omega) (by omega)
      · intro p h1 h2
        rw [hInv p h1 h2]
        simp only [clearSpec]
        obtain ⟨p1, p2⟩ := p
        dsimp only
        constructor
        · rintro (⟨h3, h4⟩ | ⟨h3, h4⟩ | ⟨r, hr1, hr2, hr3, hr4, hr5⟩)
          · exact Or.inl ⟨h3, h4⟩
          · by_cases hp2 : p2 = lo
            · refine Or.inr (Or.inr ⟨lo, hlo1, by omega, ?_, ?_, ?_⟩)
              · rw [← hp2]
                exact h4
              · rintro ⟨-, hcc⟩
                exact hcomp hcc
              · rw [shiftCount_self]
                omega
            · exact Or.inr (Or.inl ⟨by omega, h4⟩)
          · have hstep2 := shiftCount_step width h B₀ r lo hr2 hlo1 hle
            rw [if_neg hcomp] at hstep2
            exact Or.inr (Or.inr ⟨r, hr1, by omega, hr3, hr4, by omega⟩)
        · rintro (⟨h3, h4⟩ | ⟨h3, h4⟩ | ⟨r, hr1, hr2, hr3, hr4, hr5⟩)
          · exact Or.inl ⟨h3, h4⟩
          · exact Or.inr (Or.inl ⟨by omega, h4⟩)
          · by_cases hrlo : r = lo
            · have hz := shiftCount_self width h B₀ lo
              rw [hrlo] at hr5 hr3
              have hp2 : p2 = lo := by omega
              refine Or.inr (Or.inl ⟨by omega, ?_⟩)
              rw [hp2]
              exact hr3
            · have hrlt : r < lo := by omega
              have hstep2 := shiftCount_step width h B₀ r lo hrlt hlo1 hle
              rw [if_neg hcomp] at hstep2
              exact Or.inr (Or.inr ⟨r, hr1, hrlt, hr3, hr4, by omega⟩)
      · exact hOut
      · intro r h1 h2
        by_cases hrlo : r = lo
        · rw [hrlo, hrow]
          exact hcf
        · exact hIncomp r h1 (by omega)

/-! ### Claim C3: the clearing pass of `update_building` -/

/-- C3: after `update_building` (which commits the locked piece and
then scans rows `border_size..height` in ascending order, removing each
row found complete), no row of `[border_size, height]` remains
complete; moreover the final settled mapping is exactly described by
`clearSpec` at `height + 1`: on board columns, each surviving cell of
the committed mapping sits exactly `shiftCount` rows lower — once per
originally-completed row strictly below it and never twice (no
double-shifting) — cells at row 0 and off-board columns are untouched,
and every cell of a completed row is gone. -/
theorem claim_update_building (g : Game) (hw : border_size ≤ g.width) (hh : 0 ≤ g.height) :
    (∀ r : ℤ, border_size ≤ r → r ≤ g.height →
      row_is_completed g.width g.update_building.building r = false) ∧
    (∀ p : ℤ × ℤ, border_size ≤ p.1 → p.1 ≤ g.width →
      (p ∈ g.update_building.building ↔
        clearSpec g.width g.height (commit_bricks g.current_block.bricks g.building)
          (g.height + 1) p)) ∧
    (∀ p : ℤ × ℤ, ¬(border_size ≤ p.1 ∧ p.1 ≤ g.width) →
      (p ∈ g.update_building.building ↔
        p ∈ commit_bricks g.current_block.bricks g.building)) := by
  have hb : g.update_building.building =
      clearRowsFrom g.width g.height border_size
        (commit_bricks g.current_block.bricks g.building) := rfl
  have hbs : border_size = 1 := rfl
  have h0 := clearRowsFrom_invariant g.width g.height
    (commit_bricks g.current_block.bricks g.building) hw
    ((g.height + 1 - border_size).toNat) border_size
    (commit_bricks g.current_block.bricks g.building) rfl (le_refl _) (by omega)
    (by
      intro p h1 h2
      rw [clearSpec]
      constructor
      · intro hp
        by_cases hcase : p.2 < border_size
        · exact Or.inl ⟨hcase, hp⟩
        · exact Or.inr (Or.inl ⟨by omega, hp⟩)
      · rintro (⟨-, hp⟩ | ⟨-, hp⟩ | ⟨r, hr1, hr2, -, -, -⟩)
        · exact hp
        · exact hp
        · exact absurd hr1 (by omega))
    (fun p _ => Iff.rfl)
    (fun r h1 h2 => absurd h2 (by omega))
  rw [hb]
  exact ⟨h0.2.2, h0.1, h0.2.1⟩

/-- A small board about to lock an O-piece that completes rows 1 and 2
while row 3 is already complete: three simultaneous clears. -/
def gameC3w : Game :=
  { width := 2, height := 3, building := {(1, 3), (2, 3)}, blocks := [Shape.O],
    current_block := Block.create Shape.O 2 1, over := false }

/-- Witness for C3 at a concrete multi-row clear. -/
theorem claim_update_building_witness :
    border_size ≤ gameC3w.width ∧ 0 ≤ gameC3w.height ∧
    ((∀ r : ℤ, border_size ≤ r → r ≤ gameC3w.height →
      row_is_completed gameC3w.width gameC3w.update_building.building r = false) ∧
    (∀ p : ℤ × ℤ, border_size ≤ p.1 → p.1 ≤ gameC3w.width →
      (p ∈ gameC3w.update_building.building ↔
        clearSpec gameC3w.width gameC3w.height
          (commit_bricks gameC3w.current_block.bricks gameC3w.building)
          (gameC3w.height + 1) p)) ∧
    (∀ p : ℤ × ℤ, ¬(border_size ≤ p.1 ∧ p.1 ≤ gameC3w.width) →
      (p ∈ gameC3w.update_building.building ↔
        p ∈ commit_bricks gameC3w.current_block.bricks gameC3w.building))) :=
  ⟨by decide, by decide, claim_update_building gameC3w (by decide) (by decide)⟩

/-- Witness for C2's amended theorem at a concrete completed row. -/
theorem claim_remove_row_witness :
    row_is_completed 2 buildingC2w 3 = true ∧ border_size ≤ (3 : ℤ) ∧
    ((∀ p : ℤ × ℤ, p ∈ remove_row 2 buildingC2w 3 ↔
      (if border_size ≤ p.1 ∧ p.1 ≤ 2 then colShift border_size 3 buildingC2w p
        else p ∈ buildingC2w)) ∧
    (remove_row 2 buildingC2w 3).card + (2 : ℤ).toNat = buildingC2w.card) :=
  ⟨by decide, by decide, claim_remove_row 2 3 buildingC2w (by decide) (by decide)⟩

end Tetris
